import Mathlib

/-!
Verification model of the `Smoothed<T>` parameter smoother from
`src/smooth.rs` (crate `oddio`, fork `kcking/oddio`), instantiated at the
reference numeric type `f32`.

`f32` values are modelled by `F32`: exact rationals plus the IEEE special
values `+inf`, `-inf` and `nan`.  Arithmetic on the rational part is exact
(no rounding); the special values follow IEEE 754 semantics as exposed by
Rust (`0.0 / 0.0 = nan`, `x / 0.0 = ±inf` for nonzero `x`, `f32::min`
returns the non-NaN operand, comparisons with NaN are false).  Negative
zero does not exist in this domain; the sign-bit behaviour of `f32` on
signed zeros is modelled separately by `SignedF` below, which carries an
explicit sign bit.
-/

/-- Idealized `f32`: an exact rational, or one of the special values. -/
inductive F32 where
  | num (q : ℚ)
  | pinf
  | ninf
  | nan
deriving DecidableEq

/-- IEEE addition (exact on the rational part). -/
@[simp] def F32.add : F32 → F32 → F32
  | .nan, _ => .nan
  | _, .nan => .nan
  | .pinf, .ninf => .nan
  | .ninf, .pinf => .nan
  | .pinf, _ => .pinf
  | _, .pinf => .pinf
  | .ninf, _ => .ninf
  | _, .ninf => .ninf
  | .num a, .num b => .num (a + b)

/-- IEEE negation (on this domain, which has no negative zero). -/
@[simp] def F32.neg : F32 → F32
  | .num a => .num (-a)
  | .pinf => .ninf
  | .ninf => .pinf
  | .nan => .nan

/-- IEEE subtraction, `a - b`. -/
@[simp] def F32.sub (a b : F32) : F32 := a.add b.neg

/-- IEEE multiplication (exact on the rational part); `inf * 0 = nan`. -/
@[simp] def F32.mul : F32 → F32 → F32
  | .nan, _ => .nan
  | _, .nan => .nan
  | .pinf, .pinf => .pinf
  | .pinf, .ninf => .ninf
  | .ninf, .pinf => .ninf
  | .ninf, .ninf => .pinf
  | .pinf, .num b => if 0 < b then .pinf else if b < 0 then .ninf else .nan
  | .ninf, .num b => if 0 < b then .ninf else if b < 0 then .pinf else .nan
  | .num a, .pinf => if 0 < a then .pinf else if a < 0 then .ninf else .nan
  | .num a, .ninf => if 0 < a then .ninf else if a < 0 then .pinf else .nan
  | .num a, .num b => .num (a * b)

/-- IEEE division, `a / b`: `0/0 = nan`, `x/0 = ±inf` (the zero divisor is
`+0` since the domain has no negative zero), `inf/inf = nan`. -/
@[simp] def F32.div : F32 → F32 → F32
  | .nan, _ => .nan
  | _, .nan => .nan
  | .pinf, .pinf => .nan
  | .pinf, .ninf => .nan
  | .ninf, .pinf => .nan
  | .ninf, .ninf => .nan
  | .pinf, .num b => if b < 0 then .ninf else .pinf
  | .ninf, .num b => if b < 0 then .pinf else .ninf
  | .num _, .pinf => .num 0
  | .num _, .ninf => .num 0
  | .num a, .num b =>
      if b = 0 then
        if a = 0 then .nan else if 0 < a then .pinf else .ninf
      else .num (a / b)

/-- Rust `f32::min`: if one argument is NaN the other is returned. -/
@[simp] def F32.fmin : F32 → F32 → F32
  | .nan, b => b
  | a, .nan => a
  | .ninf, _ => .ninf
  | _, .ninf => .ninf
  | .pinf, b => b
  | a, .pinf => a
  | .num a, .num b => .num (min a b)

/-- IEEE `<` as a boolean: any comparison involving NaN is false. -/
@[simp] def F32.flt : F32 → F32 → Bool
  | .nan, _ => false
  | _, .nan => false
  | .ninf, .ninf => false
  | .ninf, _ => true
  | _, .ninf => false
  | .pinf, _ => false
  | .num _, .pinf => true
  | .num a, .num b => decide (a < b)

/-- IEEE `==` as a boolean: any comparison involving NaN is false. -/
@[simp] def F32.feq : F32 → F32 → Bool
  | .nan, _ => false
  | _, .nan => false
  | .pinf, .pinf => true
  | .ninf, .ninf => true
  | .num a, .num b => decide (a = b)
  | _, _ => false

/-- Rust `f32::is_sign_positive`, the sign-bit test.  On this domain the
rational `0` stands for `+0`, so it tests `0 ≤ q`; `nan` never reaches this
function in any trace considered below, and its sign bit is
platform-dependent in the source, so the choice made here is immaterial. -/
@[simp] def F32.is_sign_positive : F32 → Bool
  | .num q => decide (0 ≤ q)
  | .pinf => true
  | .ninf => false
  | .nan => true

/-- `<f32 as Interpolate>::sign` from `src/smooth.rs`:
`if self.is_sign_positive() { 1. } else { -1. }`. -/
@[simp] def F32.sign (x : F32) : F32 :=
  if x.is_sign_positive then .num 1 else .num (-1)

/-- `<f32 as Interpolate>::interpolate` from `src/smooth.rs`:
`let diff = other - self; self + t * diff`. -/
@[simp] def F32.interpolate (a other t : F32) : F32 :=
  a.add (t.mul (other.sub a))

/-- `<f32 as Interpolate>::to_f32` is the identity on `f32`. -/
@[simp] def F32.to_f32 (x : F32) : F32 := x

/-- The `Smoothed<f32>` state from `src/smooth.rs`. -/
structure Smoothed where
  prev : F32
  next : F32
  progress : F32
deriving DecidableEq

/-- `Smoothed::new(x)`: `prev = next = x`, `progress = 1.0`. -/
@[simp] def Smoothed.new (x : F32) : Smoothed :=
  { prev := x, next := x, progress := .num 1 }

/-- The derived `Default` for `Smoothed<f32>`: all fields default, so
`prev = next = 0.0` and `progress = 0.0`. -/
@[simp] def Smoothed.defaultState : Smoothed :=
  { prev := .num 0, next := .num 0, progress := .num 0 }

/-- `Smoothed::advance(proportion)`:
`self.progress = (self.progress + proportion).min(1.0)`. -/
@[simp] def Smoothed.advance (s : Smoothed) (proportion : F32) : Smoothed :=
  { s with progress := (s.progress.add proportion).fmin (.num 1) }

/-- `Smoothed::get()`: `self.prev.interpolate(&self.next, self.progress)`. -/
@[simp] def Smoothed.get (s : Smoothed) : F32 :=
  s.prev.interpolate s.next s.progress

/-- `Smoothed::target()`: returns `self.next`. -/
@[simp] def Smoothed.target (s : Smoothed) : F32 := s.next

/-- The branch guard of `Smoothed::set`:
`self.progress < 1. && (value - self.get()).sign() == (value - self.prev).sign()`. -/
@[simp] def Smoothed.sameDir (s : Smoothed) (value : F32) : Bool :=
  s.progress.flt (.num 1) &&
    ((value.sub s.get).sign.feq (value.sub s.prev).sign)

/-- `Smoothed::set(value)`.  In the first branch the source reads
`self.get()` into `current`, assigns `self.next = value`, then sets
`self.progress = ((current - self.prev) / (self.next - current)).to_f32()`,
where `self.next` is already `value`.  In the second branch it snapshots
`self.prev = self.get()`, sets `self.next = value` and resets
`self.progress = 0.0`. -/
@[simp] def Smoothed.set (s : Smoothed) (value : F32) : Smoothed :=
  if s.sameDir value then
    { prev := s.prev, next := value
      progress := ((s.get.sub s.prev).div (value.sub s.get)).to_f32 }
  else
    { prev := s.get, next := value, progress := .num 0 }

/-- Advance through a list of proportions, in order. -/
@[simp] def Smoothed.advances (s : Smoothed) : List F32 → Smoothed
  | [] => s
  | p :: ps => (s.advance p).advances ps

example : (Smoothed.new (.num 0)).get = .num 0 := by simp

example :
    ((Smoothed.new (.num 0)).set (.num 1)).get = .num 0 := by norm_num

example :
    (((Smoothed.new (.num 0)).set (.num 1)).advance (.num (1/2))).get
      = .num (1/2) := by norm_num

/-- `x` is a rational value lying in the unit interval. -/
def inUnitInterval (x : F32) : Prop :=
  ∃ q : ℚ, x = .num q ∧ 0 ≤ q ∧ q ≤ 1

/-- The mid-flight state reached by `new(0.0); set(1.0); advance(0.5)`:
`prev = 0`, `next = 1`, `progress = 0.5`, observable value `0.5`. -/
def midFlight : Smoothed :=
  ((Smoothed.new (.num 0)).set (.num 1)).advance (.num (1/2))

example : midFlight = { prev := .num 0, next := .num 1, progress := .num (1/2) } := by
  norm_num [midFlight]

/-- C1: the no-jump property fails on the code.  At the reachable state
`prev = 0, next = 1, progress = 0.5` (observable value `0.5`), calling
`set(1.5)` takes the same-direction branch and changes the observable value
from `0.5` to `0.75`: the branch sets `progress = (0.5 - 0)/(1.5 - 0.5) = 0.5`
on the segment `0 → 1.5`, which evaluates to `0.75`, not `0.5`. -/
theorem c1_no_jump_fails :
    midFlight.get = .num (1/2) ∧
    (midFlight.set (.num (3/2))).get = .num (3/4) ∧
    (midFlight.set (.num (3/2))).get ≠ midFlight.get := by
  norm_num [midFlight]

/-- The state reached by `new(0.0); set(1.0); advance(0.75); set(1.0)`: the
last `set` takes the same-direction branch and computes
`progress = (0.75 - 0)/(1 - 0.75) = 3`. -/
def escapeState : Smoothed :=
  (((Smoothed.new (.num 0)).set (.num 1)).advance (.num (3/4))).set (.num 1)

/-- C2: the invariant `progress ∈ [0, 1]` fails on the code.  The reachable
state `escapeState` (four calls: `new(0.0); set(1.0); advance(0.75);
set(1.0)`, every advance proportion nonnegative) has `progress = 3`. -/
theorem c2_progress_escapes :
    escapeState.progress = .num 3 ∧ ¬ inUnitInterval escapeState.progress := by
  have h : escapeState.progress = .num 3 := by norm_num [escapeState]
  refine ⟨h, ?_⟩
  rintro ⟨q, hq, _, hq1⟩
  rw [h] at hq
  cases hq
  norm_num at hq1

/-- `new(0.0); set(1.0)` from the doc example. -/
def docTrace1 : Smoothed := (Smoothed.new (.num 0)).set (.num 1)
/-- then `advance(0.5)`. -/
def docTrace2 : Smoothed := docTrace1.advance (.num (1/2))
/-- then `set(1.5)` (same-direction mid-flight retarget). -/
def docTrace3 : Smoothed := docTrace2.set (.num (3/2))
/-- then `advance(0.5)`. -/
def docTrace4 : Smoothed := docTrace3.advance (.num (1/2))
/-- then `advance(0.5)`. -/
def docTrace5 : Smoothed := docTrace4.advance (.num (1/2))
/-- then `advance(0.5)`. -/
def docTrace6 : Smoothed := docTrace5.advance (.num (1/2))

/-- C3: the doc-example scenario diverges from the code.  The code yields
`0.75` right after `set(1.5)` (the claim says `0.5`) and `1.5` after the
following `advance(0.5)` (the claim, and the assertion in the crate's own
doc example, say `1.0`). -/
theorem c3_doc_example_diverges :
    (Smoothed.new (.num 0)).get = .num 0 ∧
    docTrace1.get = .num 0 ∧
    docTrace2.get = .num (1/2) ∧
    docTrace3.get = .num (3/4) ∧
    docTrace4.get = .num (3/2) ∧
    docTrace5.get = .num (3/2) ∧
    docTrace6.get = .num (3/2) := by
  norm_num [docTrace1, docTrace2, docTrace3, docTrace4, docTrace5, docTrace6]

/-- The state reached by `new(1.0); set(0.0); advance(0.5); set(1.5)`: the
last `set` passes the same-direction test (both deltas are positive even
though the motion reverses) and computes
`progress = (0.5 - 1)/(1.5 - 0.5) = -0.5`. -/
def reversalState : Smoothed :=
  (((Smoothed.new (.num 1)).set (.num 0)).advance (.num (1/2))).set (.num (3/2))

/-- C4: terminal exactness fails on the code.  From `reversalState` (the
state established by its most recent `set(1.5)`), a single `advance(1.0)` —
nonnegative proportions summing to `1.0` — leaves `get() = 1.25` while
`target() = 1.5`. -/
theorem c4_terminal_exactness_fails :
    reversalState.progress = .num (-(1/2)) ∧
    (reversalState.advance (.num 1)).get = .num (5/4) ∧
    reversalState.target = .num (3/2) ∧
    (reversalState.advance (.num 1)).get ≠ (reversalState.advance (.num 1)).target := by
  norm_num [reversalState]

/-- C7 counterexample: at the reachable state `midFlight` (`prev = 0`,
`next = 1`, `progress = 0.5`, observable value `0.5`), `set(0.5)` takes the
same-direction branch, yet the divisor `next - current = 0.5 - 0.5` is
zero. -/
theorem c7_zero_delta_counterexample :
    midFlight.sameDir (.num (1/2)) = true ∧
    (F32.num (1/2)).sub midFlight.get = .num 0 := by
  norm_num [midFlight]

/-- C7 amended: the engine does not guard the zero-delta division.  At the
reachable state `midFlight`, `set(0.5)` divides the nonzero numerator
`current - prev = 0.5` by the zero delta `next - current = 0` and stores the
resulting infinity in `progress`. -/
theorem c7_division_unguarded :
    (midFlight.set (.num (1/2))).progress = F32.pinf := by
  norm_num [midFlight]

/-- `f32` for the signedness model of `<f32 as Interpolate>::sign`: an
explicit sign bit plus a nonnegative magnitude; `⟨false, 0⟩` is `+0.0` and
`⟨true, 0⟩` is `-0.0`.  Rust's `is_sign_positive` is exactly the sign-bit
test. -/
structure SignedF where
  negBit : Bool
  mag : ℚ

/-- Rust `f32::is_sign_positive` on the sign-bit-aware model. -/
@[simp] def SignedF.is_sign_positive (x : SignedF) : Bool := ! x.negBit

/-- `<f32 as Interpolate>::sign` on the sign-bit-aware model:
`if self.is_sign_positive() { 1. } else { -1. }`. -/
@[simp] def SignedF.sign (x : SignedF) : ℚ :=
  if x.is_sign_positive then 1 else -1

/-- `+0.0`. -/
def posZeroF : SignedF := { negBit := false, mag := 0 }
/-- `-0.0`. -/
def negZeroF : SignedF := { negBit := true, mag := 0 }

/-- C8 counterexample: `sign(-0.0)` is `-1`, not `+1` as the claim states —
negative zero has its sign bit set, so `is_sign_positive` returns false. -/
theorem c8_negzero_counterexample :
    negZeroF.sign = -1 ∧ negZeroF.sign ≠ 1 := by
  norm_num [negZeroF]

/-- C8 amended: the sign-bit test maps `+0.0` to `+1` and `-0.0` to `-1`. -/
theorem c8_sign_zero_conventions :
    posZeroF.sign = 1 ∧ negZeroF.sign = -1 := by
  norm_num [posZeroF, negZeroF]

/-- C10: the derived `Default` gives `prev = next = 0.0` but
`progress = 0.0` — unlike `new(0.0)`, whose `progress` is `1.0` — so it
starts interpolating; `get()` still returns `0.0` because both endpoints
coincide, and one `advance(1.0)` reaches the settled `progress = 1.0`. -/
theorem c10_default_vs_new :
    Smoothed.defaultState.prev = .num 0 ∧
    Smoothed.defaultState.next = .num 0 ∧
    Smoothed.defaultState.progress = .num 0 ∧
    (Smoothed.new (.num 0)).progress = .num 1 ∧
    Smoothed.defaultState.get = .num 0 ∧
    (Smoothed.defaultState.advance (.num 1)).progress = .num 1 := by
  norm_num

/-- Rational value of an `F32`, with the special values sent to `0`. -/
@[simp] def F32.toQ : F32 → ℚ
  | .num q => q
  | _ => 0

lemma advance_settled (s : Smoothed) (q : ℚ) (h0 : 0 ≤ q)
    (hprog : s.progress = .num 1) : s.advance (.num q) = s := by
  cases s with
  | mk p n pr =>
    simp only at hprog
    subst hprog
    simp only [Smoothed.advance, F32.add, F32.fmin, Smoothed.mk.injEq,
      true_and, F32.num.injEq]
    rw [min_eq_right (by linarith)]

lemma advances_settled (s : Smoothed) (ps : List ℚ) (h : ∀ q ∈ ps, 0 ≤ q)
    (hprog : s.progress = .num 1) : s.advances (ps.map F32.num) = s := by
  induction ps with
  | nil => rfl
  | cons q ps ih =>
    simp only [List.map_cons, Smoothed.advances]
    rw [advance_settled s q (h q (List.mem_cons_self q ps)) hprog]
    exact ih fun x hx => h x (List.mem_cons_of_mem q hx)

/-- Folded effect of `advance` on a rational progress value:
each step replaces `t` by `min (t + q) 1`. -/
def clampAdd : ℚ → List ℚ → ℚ
  | t, [] => t
  | t, q :: ps => clampAdd (min (t + q) 1) ps

lemma advances_mk (b v t : ℚ) (ps : List ℚ) :
    (Smoothed.mk (.num b) (.num v) (.num t)).advances (ps.map F32.num)
      = Smoothed.mk (.num b) (.num v) (.num (clampAdd t ps)) := by
  induction ps generalizing t with
  | nil => rfl
  | cons q ps ih =>
    simp only [List.map_cons, Smoothed.advances, Smoothed.advance,
      F32.add, F32.fmin]
    exact ih (min (t + q) 1)

lemma clampAdd_eq (t : ℚ) (ps : List ℚ) (ht : t ≤ 1)
    (h : ∀ q ∈ ps, 0 ≤ q) : clampAdd t ps = min (t + ps.sum) 1 := by
  induction ps generalizing t with
  | nil => simp [clampAdd, min_eq_left ht]
  | cons q ps ih =>
    have hq : 0 ≤ q := h q (List.mem_cons_self q ps)
    have hps : ∀ x ∈ ps, 0 ≤ x := fun x hx => h x (List.mem_cons_of_mem q hx)
    have hsum : 0 ≤ ps.sum := List.sum_nonneg hps
    rw [clampAdd, ih (min (t + q) 1) (min_le_right _ _) hps, List.sum_cons]
    rcases le_total (t + q) 1 with hle | hle
    · rw [min_eq_left hle, add_assoc]
    · rw [min_eq_right hle]
      rw [min_eq_right (by linarith), min_eq_right (by linarith)]

lemma get_mk (b v t : ℚ) :
    (Smoothed.mk (.num b) (.num v) (.num t)).get = .num (b + t * (v - b)) := by
  simp only [Smoothed.get, F32.interpolate, F32.sub, F32.neg, F32.add,
    F32.mul, F32.num.injEq]
  ring

/-- The observable value after `set(x)` from `s` followed by the first `k`
advances of `ps`. -/
def getAfter (s : Smoothed) (x : F32) (ps : List ℚ) (k : ℕ) : ℚ :=
  (((s.set x).advances ((ps.take k).map F32.num)).get).toQ

lemma set_settled (s : Smoothed) (a b v : ℚ)
    (hp : s.prev = .num a) (hn : s.next = .num b)
    (hprog : s.progress = .num 1) :
    s.set (.num v) = Smoothed.mk (.num b) (.num v) (.num 0) := by
  have hsd : s.sameDir (.num v) = false := by
    simp only [Smoothed.sameDir, hprog, F32.flt, Bool.false_and,
      decide_eq_false_iff_not, not_lt]
    simp
  have hget : s.get = .num b := by
    rw [Smoothed.get, hp, hn, hprog]
    simp only [F32.interpolate, F32.sub, F32.neg, F32.add, F32.mul,
      F32.num.injEq]
    ring
  rw [Smoothed.set, hsd, if_neg Bool.false_ne_true, hget]

lemma getAfter_closed_form (s : Smoothed) (a b v : ℚ) (ps : List ℚ)
    (hp : s.prev = .num a) (hn : s.next = .num b)
    (hprog : s.progress = .num 1) (hps : ∀ q ∈ ps, 0 ≤ q) (k : ℕ) :
    getAfter s (.num v) ps k
      = b + min (ps.take k).sum 1 * (v - b) := by
  have htake : ∀ q ∈ ps.take k, (0:ℚ) ≤ q :=
    fun q hq => hps q (List.take_subset k ps hq)
  rw [getAfter, set_settled s a b v hp hn hprog, advances_mk,
    clampAdd_eq 0 (ps.take k) (by norm_num) htake, get_mk]
  simp

lemma sum_take_mono (ps : List ℚ) (hps : ∀ q ∈ ps, 0 ≤ q) (j k : ℕ)
    (hjk : j ≤ k) : (ps.take j).sum ≤ (ps.take k).sum := by
  have hsplit : ps.take j ++ (ps.take k).drop j = ps.take k := by
    have h := List.take_append_drop j (ps.take k)
    rwa [List.take_take, min_eq_left hjk] at h
  have hnn : 0 ≤ ((ps.take k).drop j).sum := by
    refine List.sum_nonneg fun q hq => hps q ?_
    exact List.take_subset k ps (List.drop_subset j (ps.take k) hq)
  calc (ps.take j).sum ≤ (ps.take j).sum + ((ps.take k).drop j).sum := by linarith
    _ = (ps.take j ++ (ps.take k).drop j).sum := List.sum_append.symm
    _ = (ps.take k).sum := by rw [hsplit]

/-- Exact-arithmetic baseline: from a settled state with rational data, a
single `set(x)` followed by any sequence of positive-proportion advances
yields observable values that start at the pre-`set` value, move weakly
monotonically toward `x`, and stay between the pre-`set` value and `x` —
when every operation is evaluated without rounding. -/
lemma exact_trace_monotone (s : Smoothed) (a b v : ℚ) (ps : List ℚ)
    (hp : s.prev = .num a) (hn : s.next = .num b)
    (hprog : s.progress = .num 1) (hps : ∀ q ∈ ps, 0 < q) :
    getAfter s (.num v) ps 0 = s.get.toQ ∧
    (∀ j k : ℕ, j ≤ k →
      (b ≤ v → getAfter s (.num v) ps j ≤ getAfter s (.num v) ps k) ∧
      (v ≤ b → getAfter s (.num v) ps k ≤ getAfter s (.num v) ps j)) ∧
    (∀ k : ℕ, min b v ≤ getAfter s (.num v) ps k ∧
      getAfter s (.num v) ps k ≤ max b v) := by
  have hps' : ∀ q ∈ ps, (0:ℚ) ≤ q := fun q hq => le_of_lt (hps q hq)
  have hcf := getAfter_closed_form s a b v ps hp hn hprog hps'
  have hget : s.get = .num b := by
    rw [Smoothed.get, hp, hn, hprog]
    simp only [F32.interpolate, F32.sub, F32.neg, F32.add, F32.mul,
      F32.num.injEq]
    ring
  have humem : ∀ k : ℕ, 0 ≤ min (ps.take k).sum 1 ∧ min (ps.take k).sum 1 ≤ 1 := by
    intro k
    constructor
    · exact le_min (List.sum_nonneg fun q hq => hps' q (List.take_subset k ps hq))
        (by norm_num)
    · exact min_le_right _ _
  refine ⟨?_, ?_, ?_⟩
  · rw [hcf 0, hget]
    simp
  · intro j k hjk
    have hmono : min (ps.take j).sum 1 ≤ min (ps.take k).sum 1 :=
      min_le_min (sum_take_mono ps hps' j k hjk) le_rfl
    rw [hcf j, hcf k]
    constructor
    · intro hbv
      nlinarith [mul_le_mul_of_nonneg_right hmono (sub_nonneg.2 hbv)]
    · intro hvb
      nlinarith [mul_le_mul_of_nonneg_right hmono (sub_nonneg.2 hvb)]
  · intro k
    obtain ⟨h0, h1⟩ := humem k
    rw [hcf k]
    rcases le_total b v with hbv | hvb
    · rw [min_eq_left hbv, max_eq_right hbv]
      constructor <;> nlinarith
    · rw [min_eq_right hvb, max_eq_left hvb]
      constructor <;> nlinarith

/-- One iteration of the crate's `repeated_set` test loop:
`s.set(1.); s.advance(0.001)`. -/
def loopStep (s : Smoothed) : Smoothed :=
  (s.set (.num 1)).advance (.num (1/1000))

/-- `k` iterations of the test loop. -/
def loopIter : ℕ → Smoothed → Smoothed
  | 0, s => s
  | k+1, s => loopStep (loopIter k s)

/-- State invariant after `k` loop iterations (for `k ≥ 1`): either still
ramping along the segment `0 → 1` with progress at least `min (k/1000) 1`,
or parked with `prev = next = 1`. -/
def loopInv (k : ℕ) (s : Smoothed) : Prop :=
  (s.prev = .num 0 ∧ s.next = .num 1 ∧
    ∃ t : ℚ, s.progress = .num t ∧ min ((k : ℚ)/1000) 1 ≤ t ∧ t ≤ 1) ∨
  (s.prev = .num 1 ∧ s.next = .num 1 ∧
    ∃ t : ℚ, s.progress = .num t ∧ 0 ≤ t ∧ t ≤ 1)

lemma loopStep_ramp (t : ℚ) (_h0 : 0 ≤ t) (h1 : t < 1) :
    loopStep (Smoothed.mk (.num 0) (.num 1) (.num t))
      = Smoothed.mk (.num 0) (.num 1) (.num (min (t/(1-t) + 1/1000) 1)) := by
  have hget : (Smoothed.mk (.num 0) (.num 1) (.num t)).get = .num t := by
    rw [get_mk]; ring_nf
  have hsd : (Smoothed.mk (.num 0) (.num 1) (.num t)).sameDir (.num 1) = true := by
    rw [Smoothed.sameDir, hget]
    simp only [F32.flt, F32.sub, F32.neg, F32.add, F32.sign,
      F32.is_sign_positive, F32.feq, Bool.and_eq_true, decide_eq_true_eq]
    constructor
    · exact h1
    · rw [if_pos (by norm_num; linarith), if_pos (by norm_num)]
      simp
  rw [loopStep, Smoothed.set, hsd, if_pos rfl, hget]
  simp only [Smoothed.advance, F32.sub, F32.neg, F32.add, F32.div,
    F32.to_f32, F32.fmin, Smoothed.mk.injEq, true_and]
  rw [if_neg (by intro hc; exact absurd (by linarith : t < 1) (by rw [show t = 1 by linarith]; norm_num))]
  norm_num [F32.num.injEq]
  ring_nf

lemma loopStep_ramp_settled :
    loopStep (Smoothed.mk (.num 0) (.num 1) (.num 1))
      = Smoothed.mk (.num 1) (.num 1) (.num (1/1000)) := by
  norm_num [loopStep]

lemma loopStep_parked (t : ℚ) (_h0 : 0 ≤ t) (h1 : t < 1) :
    loopStep (Smoothed.mk (.num 1) (.num 1) (.num t))
      = Smoothed.mk (.num 1) (.num 1) (.num 1) := by
  have hget : (Smoothed.mk (.num 1) (.num 1) (.num t)).get = .num 1 := by
    rw [get_mk]; ring_nf
  have hsd : (Smoothed.mk (.num 1) (.num 1) (.num t)).sameDir (.num 1) = true := by
    rw [Smoothed.sameDir, hget]
    simp only [F32.flt, F32.sub, F32.neg, F32.add, F32.sign,
      F32.is_sign_positive, F32.feq, Bool.and_eq_true, decide_eq_true_eq]
    exact ⟨h1, by norm_num⟩
  rw [loopStep, Smoothed.set, hsd, if_pos rfl, hget]
  norm_num

lemma loopStep_parked_settled :
    loopStep (Smoothed.mk (.num 1) (.num 1) (.num 1))
      = Smoothed.mk (.num 1) (.num 1) (.num (1/1000)) := by
  norm_num [loopStep]

lemma min_div_succ (k : ℕ) :
    min (((k : ℚ) + 1)/1000) 1 ≤ min ((k : ℚ)/1000) 1 + 1/1000 := by
  rcases le_total ((k : ℚ)/1000) 1 with h | h
  · rw [min_eq_left h]
    calc min (((k : ℚ) + 1)/1000) 1 ≤ ((k : ℚ) + 1)/1000 := min_le_left _ _
      _ = (k : ℚ)/1000 + 1/1000 := by ring
  · rw [min_eq_right h]
    calc min (((k : ℚ) + 1)/1000) 1 ≤ 1 := min_le_right _ _
      _ ≤ 1 + 1/1000 := by norm_num

lemma loopStep_inv (k : ℕ) (s : Smoothed) (h : loopInv k s) :
    loopInv (k+1) (loopStep s) := by
  cases s with
  | mk p n pr =>
    rcases h with ⟨hp, hn, t, hpr, hlo, hhi⟩ | ⟨hp, hn, t, hpr, hlo, hhi⟩ <;>
      simp only at hp hn hpr <;> subst hp <;> subst hn <;> subst hpr
    · have ht0 : 0 ≤ t := le_trans (le_min (by positivity) (by norm_num)) hlo
      rcases lt_or_eq_of_le hhi with h1 | h1
      · rw [loopStep_ramp t ht0 h1]
        left
        refine ⟨rfl, rfl, min (t/(1-t) + 1/1000) 1, rfl, ?_, min_le_right _ _⟩
        have hdiv : t ≤ t/(1-t) := by
          rw [le_div_iff₀ (by linarith)]
          nlinarith
        refine le_min ?_ (by norm_num)
        push_cast
        calc min (((k : ℚ) + 1)/1000) 1
            ≤ min ((k : ℚ)/1000) 1 + 1/1000 := min_div_succ k
          _ ≤ t + 1/1000 := by linarith
          _ ≤ t/(1-t) + 1/1000 := by linarith
      · subst h1
        rw [loopStep_ramp_settled]
        right
        exact ⟨rfl, rfl, 1/1000, rfl, by norm_num, by norm_num⟩
    · rcases lt_or_eq_of_le hhi with h1 | h1
      · rw [loopStep_parked t hlo h1]
        right
        exact ⟨rfl, rfl, 1, rfl, by norm_num, by norm_num⟩
      · subst h1
        rw [loopStep_parked_settled]
        right
        exact ⟨rfl, rfl, 1/1000, rfl, by norm_num, by norm_num⟩

lemma loopIter_inv (m : ℕ) :
    loopInv (m+1) (loopIter (m+1) (Smoothed.new (.num 0))) := by
  induction m with
  | zero =>
    have h1 : loopIter 1 (Smoothed.new (.num 0))
        = Smoothed.mk (.num 0) (.num 1) (.num (1/1000)) := by
      show loopStep (Smoothed.new (.num 0)) = _
      norm_num [loopStep]
    rw [h1]
    left
    refine ⟨rfl, rfl, 1/1000, rfl, ?_, by norm_num⟩
    norm_num
  | succ m ih =>
    exact loopStep_inv (m+1) _ ih

/-- C9: after 1000 iterations of `set(1.0); advance(0.001)` starting from
`new(0.0)`, the observable value is exactly `1`, hence within `0.01` of the
target `1.0` as the crate's `repeated_set` test asserts. -/
theorem c9_repeated_set :
    (loopIter 1000 (Smoothed.new (.num 0))).get = .num 1 ∧
    |((loopIter 1000 (Smoothed.new (.num 0))).get).toQ - 1| < 1/100 := by
  have h : loopInv 1000 (loopIter 1000 (Smoothed.new (.num 0))) :=
    loopIter_inv 999
  have hget : (loopIter 1000 (Smoothed.new (.num 0))).get = .num 1 := by
    rcases h with ⟨hp, hn, t, hpr, hlo, hhi⟩ | ⟨hp, hn, t, hpr, hlo, hhi⟩
    · have ht : t = 1 := by
        refine le_antisymm hhi ?_
        norm_num at hlo
        exact hlo
      subst ht
      rw [Smoothed.get, hp, hn, hpr]
      norm_num
    · rw [Smoothed.get, hp, hn, hpr]
      simp only [F32.interpolate, F32.sub, F32.neg, F32.add, F32.mul,
        F32.num.injEq]
      ring
  exact ⟨hget, by rw [hget]; norm_num⟩

/-!
The `F32` operations above are exact on rationals; actual `f32` arithmetic
rounds every result to 24 bits of significand (round-to-nearest, ties to
even).  The definitions below refine the model with that rounding, so that
claims whose truth depends on rounding can be settled faithfully: `roundF32`
rounds a rational to the nearest `f32` value, and the `R`-suffixed
operations are the rounded counterparts of the exact ones.
-/

/-- Round a rational to the nearest integer, ties to even (the IEEE 754
default rounding of the fractional part). -/
def rne (m : ℚ) : ℤ :=
  if m - ⌊m⌋ < 1/2 then ⌊m⌋
  else if (1:ℚ)/2 < m - ⌊m⌋ then ⌊m⌋ + 1
  else if Even ⌊m⌋ then ⌊m⌋ else ⌊m⌋ + 1

/-- Exponent of the unit in the last place of a positive rational seen as an
`f32`: normal numbers use `log2 − 23`; below `2^(-126)` the ulp is clamped
to the subnormal ulp `2^(-149)`. -/
def f32ulpExp (q : ℚ) : ℤ := max (Int.log 2 q) (-126) - 23

/-- Round a positive rational to the nearest `f32` value (ties to even),
overflowing to `+inf` when the rounded result reaches `2^128`. -/
def roundPos (q : ℚ) : F32 :=
  if ((rne (q / 2 ^ f32ulpExp q) : ℚ) * 2 ^ f32ulpExp q) < (2:ℚ) ^ (128:ℤ) then
    .num ((rne (q / 2 ^ f32ulpExp q) : ℚ) * 2 ^ f32ulpExp q)
  else .pinf

/-- Round a rational to the nearest `f32` value. -/
def roundF32 (q : ℚ) : F32 :=
  if q = 0 then .num 0
  else if 0 < q then roundPos q
  else (roundPos (-q)).neg

lemma int_log2_eq (q : ℚ) (e : ℤ) (h0 : 0 < q) (h1 : (2:ℚ)^e ≤ q)
    (h2 : q < (2:ℚ)^(e+1)) : Int.log 2 q = e := by
  have hle : e ≤ Int.log 2 q := by
    refine (Int.zpow_le_iff_le_log one_lt_two h0).mp ?_
    exact_mod_cast h1
  have hlt : Int.log 2 q < e + 1 := by
    refine (Int.lt_zpow_iff_log_lt one_lt_two h0).mp ?_
    exact_mod_cast h2
  omega

lemma f32ulpExp_eq (q : ℚ) (e : ℤ) (h0 : 0 < q) (h1 : (2:ℚ)^e ≤ q)
    (h2 : q < (2:ℚ)^(e+1)) (hmin : -126 ≤ e) : f32ulpExp q = e - 23 := by
  rw [f32ulpExp, int_log2_eq q e h0 h1 h2, max_eq_left hmin]

lemma rne_intCast (n : ℤ) : rne (n : ℚ) = n := by
  simp only [rne, Int.floor_intCast, sub_self]
  norm_num

lemma floor_le_rne (m : ℚ) : ⌊m⌋ ≤ rne m := by
  simp only [rne]
  split_ifs <;> omega

lemma roundPos_cases (q : ℚ) : (∃ r, roundPos q = .num r) ∨ roundPos q = .pinf := by
  rw [roundPos]
  split_ifs
  · exact Or.inl ⟨_, rfl⟩
  · exact Or.inr rfl

lemma roundPos_exact (q : ℚ) (e n : ℤ) (h0 : 0 < q)
    (h1 : (2:ℚ)^e ≤ q) (h2 : q < (2:ℚ)^(e+1))
    (hmin : -126 ≤ e) (hmax : e ≤ 127)
    (hq : q = (n : ℚ) * (2:ℚ)^(e-23)) : roundPos q = .num q := by
  have hulp := f32ulpExp_eq q e h0 h1 h2 hmin
  have hdiv : q / (2:ℚ)^(e-23) = (n:ℚ) := by
    rw [hq, mul_div_cancel_right₀ _ (zpow_ne_zero _ two_ne_zero)]
  have hlt : q < (2:ℚ)^(128:ℤ) :=
    lt_of_lt_of_le h2 (zpow_le_zpow_right₀ (by norm_num) (by omega))
  rw [roundPos, hulp, hdiv, rne_intCast, ← hq, if_pos hlt]

lemma roundF32_exact (q : ℚ) (e n : ℤ) (h0 : 0 < q)
    (h1 : (2:ℚ)^e ≤ q) (h2 : q < (2:ℚ)^(e+1))
    (hmin : -126 ≤ e) (hmax : e ≤ 127)
    (hq : q = (n : ℚ) * (2:ℚ)^(e-23)) : roundF32 q = .num q := by
  rw [roundF32, if_neg (ne_of_gt h0), if_pos h0,
    roundPos_exact q e n h0 h1 h2 hmin hmax hq]

lemma roundF32_exact_neg (q : ℚ) (e n : ℤ) (h0 : 0 < q)
    (h1 : (2:ℚ)^e ≤ q) (h2 : q < (2:ℚ)^(e+1))
    (hmin : -126 ≤ e) (hmax : e ≤ 127)
    (hq : q = (n : ℚ) * (2:ℚ)^(e-23)) : roundF32 (-q) = .num (-q) := by
  rw [roundF32, if_neg (neg_ne_zero.mpr (ne_of_gt h0)),
    if_neg (by simp; linarith), neg_neg,
    roundPos_exact q e n h0 h1 h2 hmin hmax hq]
  simp only [F32.neg]

lemma roundF32_zero : roundF32 0 = .num 0 := by
  rw [roundF32, if_pos rfl]

lemma one_le_roundPos_num (q r : ℚ) (hq : 1 ≤ q) (h : roundPos q = .num r) :
    1 ≤ r := by
  have h0 : (0:ℚ) < q := lt_of_lt_of_le one_pos hq
  have hlog : 0 ≤ Int.log 2 q := by
    refine (Int.zpow_le_iff_le_log one_lt_two h0).mp ?_
    rw [zpow_zero]
    exact_mod_cast hq
  have hE : f32ulpExp q = Int.log 2 q - 23 := by
    rw [f32ulpExp, max_eq_left (by omega)]
  have hself : (2:ℚ)^(Int.log 2 q) ≤ q := by
    have := Int.zpow_log_le_self one_lt_two h0
    exact_mod_cast this
  have hpow : (0:ℚ) < (2:ℚ)^(Int.log 2 q - 23) := zpow_pos (by norm_num) _
  have hsub23 : (2:ℚ)^(Int.log 2 q - 23) = 2^(Int.log 2 q) / 8388608 := by
    rw [zpow_sub₀ (two_ne_zero)]
    norm_num
  have hm : (8388608:ℚ) ≤ q / 2^(Int.log 2 q - 23) := by
    rw [hsub23, div_div_eq_mul_div, le_div_iff₀ (zpow_pos (by norm_num) _)]
    nlinarith [hself, zpow_pos (show (0:ℚ) < 2 by norm_num) (Int.log 2 q)]
  have hfloor : (8388608 : ℤ) ≤ ⌊q / 2^(Int.log 2 q - 23)⌋ :=
    Int.le_floor.mpr (by exact_mod_cast hm)
  have hn : (8388608 : ℤ) ≤ rne (q / 2^(Int.log 2 q - 23)) :=
    le_trans hfloor (floor_le_rne _)
  rw [roundPos, hE] at h
  split_ifs at h with hc
  have hr : (rne (q / 2^(Int.log 2 q - 23)) : ℚ) * 2^(Int.log 2 q - 23) = r := by
    exact F32.num.injEq _ _ ▸ h
  have hmul : (8388608:ℚ) * 2^(Int.log 2 q - 23)
      ≤ (rne (q / 2^(Int.log 2 q - 23)) : ℚ) * 2^(Int.log 2 q - 23) :=
    mul_le_mul_of_nonneg_right (by exact_mod_cast hn) (le_of_lt hpow)
  have hone : (1:ℚ) ≤ 8388608 * 2^(Int.log 2 q - 23) := by
    rw [hsub23]
    have h2 : (1:ℚ) ≤ 2^(Int.log 2 q) := one_le_zpow₀ (by norm_num) hlog
    have hcan : (8388608:ℚ) * (2^(Int.log 2 q) / 8388608) = 2^(Int.log 2 q) := by
      field_simp
    rw [hcan]
    exact h2
  linarith [hr ▸ le_trans hone hmul]

lemma roundF32_one : roundF32 1 = .num 1 :=
  roundF32_exact 1 0 8388608 (by norm_num) (by norm_num) (by norm_num)
    (by norm_num) (by norm_num) (by norm_num)

lemma roundF32_half : roundF32 (1/2) = .num (1/2) :=
  roundF32_exact (1/2) (-1) 8388608 (by norm_num) (by norm_num) (by norm_num)
    (by norm_num) (by norm_num) (by norm_num)

lemma roundF32_five : roundF32 5 = .num 5 :=
  roundF32_exact 5 2 10485760 (by norm_num) (by norm_num) (by norm_num)
    (by norm_num) (by norm_num) (by norm_num)

lemma roundF32_nine : roundF32 9 = .num 9 :=
  roundF32_exact 9 3 9437184 (by norm_num) (by norm_num) (by norm_num)
    (by norm_num) (by norm_num) (by norm_num)

lemma roundF32_sixteen : roundF32 16 = .num 16 :=
  roundF32_exact 16 4 8388608 (by norm_num) (by norm_num) (by norm_num)
    (by norm_num) (by norm_num) (by norm_num)

lemma roundF32_neg_pow27 : roundF32 (-(134217728)) = .num (-(134217728)) :=
  roundF32_exact_neg 134217728 27 8388608 (by norm_num) (by norm_num)
    (by norm_num) (by norm_num) (by norm_num) (by norm_num)

lemma roundF32_big_repr : roundF32 134217744 = .num 134217744 :=
  roundF32_exact 134217744 27 8388609 (by norm_num) (by norm_num) (by norm_num)
    (by norm_num) (by norm_num) (by norm_num)

/-- The rounding event behind the `-2^27` counterexample: `134217737`
(that is, `9 - (-2^27)`) is not representable in `f32` (its binade has
ulp `16`) and rounds up to `134217744`. -/
lemma roundF32_offgrid : roundF32 (134217737 : ℚ) = .num 134217744 := by
  have hulp : f32ulpExp (134217737:ℚ) = 4 := by
    have h := f32ulpExp_eq (134217737:ℚ) 27 (by norm_num) (by norm_num)
      (by norm_num) (by norm_num)
    norm_num at h
    exact h
  have hfloor : ⌊(134217737:ℚ) / 2^(4:ℤ)⌋ = 8388608 := by
    rw [Int.floor_eq_iff]
    constructor <;> norm_num
  have hrne : rne ((134217737:ℚ) / 2^(4:ℤ)) = 8388609 := by
    rw [rne, hfloor]
    rw [if_neg (by norm_num), if_pos (by norm_num)]
    norm_num
  rw [roundF32, if_neg (by norm_num), if_pos (by norm_num), roundPos, hulp,
    hrne]
  rw [if_pos (by norm_num)]
  norm_num

/-- `f32` addition: the exact sum of finite operands is rounded; special
values behave as in `F32.add`. -/
def F32.addR : F32 → F32 → F32
  | .num x, .num y => roundF32 (x + y)
  | a, b => a.add b

/-- `f32` subtraction with rounding. -/
def F32.subR : F32 → F32 → F32
  | .num x, .num y => roundF32 (x - y)
  | a, b => a.sub b

/-- `f32` multiplication with rounding. -/
def F32.mulR : F32 → F32 → F32
  | .num x, .num y => roundF32 (x * y)
  | a, b => a.mul b

/-- `f32` division with rounding; zero divisors keep the special-value
behaviour of `F32.div` (`0/0 = nan`, `x/0 = ±inf`). -/
def F32.divR : F32 → F32 → F32
  | .num x, .num y => if y = 0 then (F32.num x).div (.num y) else roundF32 (x / y)
  | a, b => a.div b

/-- `<f32 as Interpolate>::interpolate` under rounded arithmetic:
`self + t * (other - self)` with every operation rounded. -/
def F32.interpolateR (a other t : F32) : F32 :=
  a.addR (t.mulR (other.subR a))

/-- `Smoothed::get()` under rounded `f32` arithmetic. -/
def Smoothed.getR (s : Smoothed) : F32 :=
  s.prev.interpolateR s.next s.progress

/-- The branch guard of `Smoothed::set` under rounded `f32` arithmetic. -/
def Smoothed.sameDirR (s : Smoothed) (value : F32) : Bool :=
  s.progress.flt (.num 1) &&
    ((value.subR s.getR).sign.feq (value.subR s.prev).sign)

/-- `Smoothed::set(value)` under rounded `f32` arithmetic. -/
def Smoothed.setR (s : Smoothed) (value : F32) : Smoothed :=
  if s.sameDirR value then
    { prev := s.prev, next := value
      progress := ((s.getR.subR s.prev).divR (value.subR s.getR)).to_f32 }
  else
    { prev := s.getR, next := value, progress := .num 0 }

/-- `Smoothed::advance(proportion)` under rounded `f32` arithmetic. -/
def Smoothed.advanceR (s : Smoothed) (proportion : F32) : Smoothed :=
  { s with progress := (s.progress.addR proportion).fmin (.num 1) }

/-- Advance through a list of proportions under rounded arithmetic. -/
def Smoothed.advancesR (s : Smoothed) : List F32 → Smoothed
  | [] => s
  | p :: ps => (s.advanceR p).advancesR ps

/-- Observable value after `set(x)` from `s` followed by the first `k`
advances of `ps`, all under rounded `f32` arithmetic. -/
def getAfterR (s : Smoothed) (x : F32) (ps : List ℚ) (k : ℕ) : ℚ :=
  (((s.setR x).advancesR ((ps.take k).map F32.num)).getR).toQ

/-- The settled state `new(-2^27)` retargeted to `9.0` and advanced to
completion, evaluated under rounded `f32` arithmetic:
`new(-2^27); set(9.0); advance(1.0)`. -/
def bigRounded : Smoothed :=
  ((Smoothed.new (.num (-(134217728)))).setR (.num 9)).advanceR (.num 1)

lemma bigRounded_eq :
    bigRounded = Smoothed.mk (.num (-(134217728))) (.num 9) (.num 1) := by
  have h1 : (F32.num (-(134217728):ℚ)).subR (.num (-(134217728))) = .num 0 := by
    simp only [F32.subR]
    rw [show (-(134217728):ℚ) - (-(134217728)) = 0 by norm_num, roundF32_zero]
  have h2 : (F32.num 1).mulR (.num 0) = .num 0 := by
    simp only [F32.mulR]
    rw [show (1:ℚ) * 0 = 0 by norm_num, roundF32_zero]
  have h3 : (F32.num (-(134217728):ℚ)).addR (.num 0) = .num (-(134217728)) := by
    simp only [F32.addR]
    rw [show (-(134217728):ℚ) + 0 = -(134217728) by norm_num, roundF32_neg_pow27]
  have hget : (Smoothed.new (.num (-(134217728)))).getR = .num (-(134217728)) := by
    rw [Smoothed.getR, F32.interpolateR]
    simp only [Smoothed.new]
    rw [h1, h2, h3]
  have hsd : (Smoothed.new (.num (-(134217728)))).sameDirR (.num 9) = false := by
    rw [Smoothed.sameDirR]
    have hpr : (Smoothed.new (.num (-(134217728)))).progress = .num 1 := rfl
    rw [hpr, show (F32.num 1).flt (.num 1) = false by norm_num [F32.flt],
      Bool.false_and]
  have hset : (Smoothed.new (.num (-(134217728)))).setR (.num 9)
      = Smoothed.mk (.num (-(134217728))) (.num 9) (.num 0) := by
    rw [Smoothed.setR, hsd, if_neg Bool.false_ne_true, hget]
  rw [bigRounded, hset, Smoothed.advanceR]
  simp only [F32.addR]
  rw [show (0:ℚ) + 1 = 1 by norm_num, roundF32_one]
  simp only [F32.fmin]
  norm_num

lemma bigRounded_getR : bigRounded.getR = .num 16 := by
  rw [bigRounded_eq, Smoothed.getR, F32.interpolateR]
  have h1 : (F32.num (9:ℚ)).subR (.num (-(134217728))) = .num 134217744 := by
    simp only [F32.subR]
    rw [show (9:ℚ) - (-(134217728)) = 134217737 by norm_num, roundF32_offgrid]
  have h2 : (F32.num 1).mulR (.num 134217744) = .num 134217744 := by
    simp only [F32.mulR]
    rw [show (1:ℚ) * 134217744 = 134217744 by norm_num, roundF32_big_repr]
  have h3 : (F32.num (-(134217728):ℚ)).addR (.num 134217744) = .num 16 := by
    simp only [F32.addR]
    rw [show (-(134217728):ℚ) + 134217744 = 16 by norm_num, roundF32_sixteen]
  show (F32.num (-(134217728):ℚ)).addR
      ((F32.num 1).mulR ((F32.num (9:ℚ)).subR (.num (-(134217728))))) = .num 16
  rw [h1, h2, h3]

lemma subR_num (x y : ℚ) : (F32.num x).subR (.num y) = roundF32 (x - y) := by
  simp only [F32.subR]

lemma mulR_num (x y : ℚ) : (F32.num x).mulR (.num y) = roundF32 (x * y) := by
  simp only [F32.mulR]

lemma addR_num (x y : ℚ) : (F32.num x).addR (.num y) = roundF32 (x + y) := by
  simp only [F32.addR]

lemma advanceR_settled (s : Smoothed) (q : ℚ) (h0 : 0 ≤ q)
    (hprog : s.progress = .num 1) : s.advanceR (.num q) = s := by
  cases s with
  | mk p n pr =>
    simp only at hprog
    subst hprog
    rw [Smoothed.advanceR]
    simp only [addR_num]
    have hpos : (0:ℚ) < 1 + q := by linarith
    rw [roundF32, if_neg (ne_of_gt hpos), if_pos hpos]
    rcases roundPos_cases (1 + q) with ⟨r, hr⟩ | hr <;> rw [hr]
    · have h1r := one_le_roundPos_num (1 + q) r (by linarith) hr
      simp only [F32.fmin, Smoothed.mk.injEq, true_and, F32.num.injEq]
      exact min_eq_right h1r
    · simp only [F32.fmin]

lemma advancesR_settled (s : Smoothed) (ps : List ℚ) (h : ∀ q ∈ ps, 0 ≤ q)
    (hprog : s.progress = .num 1) : s.advancesR (ps.map F32.num) = s := by
  induction ps with
  | nil => rfl
  | cons q ps ih =>
    simp only [List.map_cons, Smoothed.advancesR]
    rw [advanceR_settled s q (h q (List.mem_cons_self q ps)) hprog]
    exact ih fun x hx => h x (List.mem_cons_of_mem q hx)

/-- C5 counterexample: under faithful `f32` rounding, the settled state
reached by `new(-2^27); set(9.0); advance(1.0)` has `progress == 1.0` and
`next == 9.0`, yet `get()` returns `16.0`: the subtraction `9 − (−2^27)`
rounds to `2^27 + 16` (ulp `16` in that binade), so `get()` is not `next`,
refuting the claimed exactness. -/
theorem c5_exactness_counterexample :
    bigRounded.progress = .num 1 ∧ bigRounded.next = .num 9 ∧
    bigRounded.getR = .num 16 ∧ bigRounded.getR ≠ bigRounded.next := by
  refine ⟨by rw [bigRounded_eq], by rw [bigRounded_eq], bigRounded_getR, ?_⟩
  rw [bigRounded_getR, bigRounded_eq]
  simp only [ne_eq, F32.num.injEq]
  norm_num

/-- C6 counterexample: under faithful `f32` rounding, a single `set(9.0)`
from the settled state `new(-2^27)` followed by one `advance(1.0)`
(proportion `> 0`) yields `get() = 16.0`, which passes beyond the target
`9.0`: rounding of the delta `9 − (−2^27)` makes the trajectory overshoot
`x`. -/
theorem c6_overshoot_counterexample :
    (Smoothed.new (.num (-(134217728)))).progress = .num 1 ∧
    bigRounded.getR = .num 16 ∧
    max (-(134217728) : ℚ) 9 < bigRounded.getR.toQ := by
  refine ⟨rfl, bigRounded_getR, ?_⟩
  rw [bigRounded_getR]
  rw [max_eq_right (by norm_num : (-(134217728):ℚ) ≤ 9)]
  norm_num

/-- C5 (amended): whenever `progress == 1.0`, any number of `advance` calls
with non-negative proportion leaves the entire state — hence both
`progress` and `get()` — unchanged until the next `set`; and `get()`
returns `next` exactly provided the `f32` subtraction `next − prev` and
`next` itself round exactly (are representable).  Without that proviso
`get()` can differ from `next` (see the counterexample). -/
theorem c5_settled_exact_when_representable (s : Smoothed) (a b : ℚ)
    (hp : s.prev = .num a) (hn : s.next = .num b)
    (hprog : s.progress = .num 1)
    (hsub : roundF32 (b - a) = .num (b - a)) (hb : roundF32 b = .num b) :
    s.getR = s.next ∧
    ∀ ps : List ℚ, (∀ q ∈ ps, 0 ≤ q) → s.advancesR (ps.map F32.num) = s := by
  constructor
  · rw [Smoothed.getR, F32.interpolateR, hp, hn, hprog, subR_num, hsub,
      mulR_num, show (1:ℚ) * (b - a) = b - a by ring, hsub, addR_num,
      show a + (b - a) = b by ring, hb]
  · exact fun ps h => advancesR_settled s ps h hprog

/-- Witness for C5 at the settled state `prev = 0`, `next = 5`,
`progress = 1` (both `5` and `5 − 0` are representable) with advances
`[1/2, 2]`. -/
theorem c5_settled_exact_when_representable_witness :
    (Smoothed.mk (.num 0) (.num 5) (.num 1)).getR
        = (Smoothed.mk (.num 0) (.num 5) (.num 1)).next ∧
    (Smoothed.mk (.num 0) (.num 5) (.num 1)).advancesR
        ([(1:ℚ)/2, 2].map F32.num)
      = Smoothed.mk (.num 0) (.num 5) (.num 1) := by
  have h := c5_settled_exact_when_representable
    (Smoothed.mk (.num 0) (.num 5) (.num 1)) 0 5 rfl rfl rfl
    (by rw [show (5:ℚ) - 0 = 5 by norm_num]; exact roundF32_five) roundF32_five
  exact ⟨h.1, h.2 [(1:ℚ)/2, 2] (by norm_num)⟩

/-- C6 (amended): after a single `set(x)` from a settled state with
positive-proportion advances, the sequence of observable values starts at
the pre-`set` value, moves weakly monotonically toward `x`, and never
passes beyond `x`, provided the rounded `f32` evaluation of the trace
coincides with exact arithmetic (no rounding error occurs).  With rounding
the sequence can pass beyond `x` (see the counterexample). -/
theorem c6_monotone_when_no_rounding (s : Smoothed) (a b v : ℚ) (ps : List ℚ)
    (hp : s.prev = .num a) (hn : s.next = .num b)
    (hprog : s.progress = .num 1) (hps : ∀ q ∈ ps, 0 < q)
    (hexact : ∀ k : ℕ, getAfterR s (.num v) ps k = getAfter s (.num v) ps k) :
    getAfterR s (.num v) ps 0 = b ∧
    (∀ j k : ℕ, j ≤ k →
      (b ≤ v → getAfterR s (.num v) ps j ≤ getAfterR s (.num v) ps k) ∧
      (v ≤ b → getAfterR s (.num v) ps k ≤ getAfterR s (.num v) ps j)) ∧
    (∀ k : ℕ, min b v ≤ getAfterR s (.num v) ps k ∧
      getAfterR s (.num v) ps k ≤ max b v) := by
  have h := exact_trace_monotone s a b v ps hp hn hprog hps
  have hps' : ∀ q ∈ ps, (0:ℚ) ≤ q := fun q hq => le_of_lt (hps q hq)
  refine ⟨?_, ?_, ?_⟩
  · rw [hexact 0, getAfter_closed_form s a b v ps hp hn hprog hps' 0]
    rw [List.take_zero, List.sum_nil, min_eq_left (by norm_num)]
    ring
  · intro j k hjk
    rw [hexact j, hexact k]
    exact h.2.1 j k hjk
  · intro k
    rw [hexact k]
    exact h.2.2 k

lemma witness_setR :
    (Smoothed.mk (.num 0) (.num 0) (.num 1)).setR (.num 1)
      = Smoothed.mk (.num 0) (.num 1) (.num 0) := by
  have hg : (Smoothed.mk (.num 0) (.num 0) (.num 1)).getR = .num 0 := by
    rw [Smoothed.getR, F32.interpolateR]
    show (F32.num 0).addR ((F32.num 1).mulR ((F32.num 0).subR (.num 0))) = _
    rw [subR_num, show (0:ℚ) - 0 = 0 by norm_num, roundF32_zero,
      mulR_num, show (1:ℚ) * 0 = 0 by norm_num, roundF32_zero,
      addR_num, show (0:ℚ) + 0 = 0 by norm_num, roundF32_zero]
  have hsd : (Smoothed.mk (.num 0) (.num 0) (.num 1)).sameDirR (.num 1) = false := by
    rw [Smoothed.sameDirR]
    have hpr : (Smoothed.mk (F32.num 0) (.num 0) (.num 1)).progress = .num 1 := rfl
    rw [hpr, show (F32.num 1).flt (.num 1) = false by norm_num [F32.flt],
      Bool.false_and]
  rw [Smoothed.setR, hsd, if_neg Bool.false_ne_true, hg]

lemma witness_advR :
    (Smoothed.mk (.num 0) (.num 1) (.num 0)).advanceR (.num (1/2))
      = Smoothed.mk (.num 0) (.num 1) (.num (1/2)) := by
  rw [Smoothed.advanceR]
  show Smoothed.mk (.num 0) (.num 1) (((F32.num 0).addR (.num (1/2))).fmin (.num 1)) = _
  rw [addR_num, show (0:ℚ) + 1/2 = 1/2 by norm_num, roundF32_half]
  simp only [F32.fmin, Smoothed.mk.injEq, true_and, F32.num.injEq]
  norm_num

lemma witness_getR0 :
    (Smoothed.mk (.num 0) (.num 1) (.num 0)).getR = .num 0 := by
  rw [Smoothed.getR, F32.interpolateR]
  show (F32.num 0).addR ((F32.num 0).mulR ((F32.num 1).subR (.num 0))) = _
  rw [subR_num, show (1:ℚ) - 0 = 1 by norm_num, roundF32_one,
    mulR_num, show (0:ℚ) * 1 = 0 by norm_num, roundF32_zero,
    addR_num, show (0:ℚ) + 0 = 0 by norm_num, roundF32_zero]

lemma witness_getR1 :
    (Smoothed.mk (.num 0) (.num 1) (.num (1/2))).getR = .num (1/2) := by
  rw [Smoothed.getR, F32.interpolateR]
  show (F32.num 0).addR ((F32.num (1/2)).mulR ((F32.num 1).subR (.num 0))) = _
  rw [subR_num, show (1:ℚ) - 0 = 1 by norm_num, roundF32_one,
    mulR_num, show (1:ℚ)/2 * 1 = 1/2 by norm_num, roundF32_half,
    addR_num, show (0:ℚ) + 1/2 = 1/2 by norm_num, roundF32_half]

lemma witness_exact_trace (k : ℕ) :
    getAfterR (Smoothed.mk (.num 0) (.num 0) (.num 1)) (.num 1) [(1:ℚ)/2] k
      = getAfter (Smoothed.mk (.num 0) (.num 0) (.num 1)) (.num 1) [(1:ℚ)/2] k := by
  match k with
  | 0 =>
    rw [getAfterR, witness_setR]
    rw [List.take_zero, List.map_nil]
    show (Smoothed.mk (.num 0) (.num 1) (.num 0)).getR.toQ = _
    rw [witness_getR0]
    norm_num [getAfter]
  | Nat.succ m =>
    rw [getAfterR, witness_setR]
    rw [List.take_succ_cons, List.take_nil, List.map_cons, List.map_nil]
    show ((Smoothed.mk (.num 0) (.num 1) (.num 0)).advanceR (.num (1/2))).getR.toQ = _
    rw [witness_advR, witness_getR1]
    norm_num [getAfter]

/-- Witness for C6 at the settled state `prev = next = 0`, `progress = 1`,
target `1`, advances `[1/2]`: here the rounded trace coincides with the
exact one (all values are representable), and the conclusions hold. -/
theorem c6_monotone_when_no_rounding_witness :
    getAfterR (Smoothed.mk (.num 0) (.num 0) (.num 1)) (.num 1) [(1:ℚ)/2] 0 = 0 ∧
    ((0:ℚ) ≤ 1 →
      getAfterR (Smoothed.mk (.num 0) (.num 0) (.num 1)) (.num 1) [(1:ℚ)/2] 0 ≤
      getAfterR (Smoothed.mk (.num 0) (.num 0) (.num 1)) (.num 1) [(1:ℚ)/2] 1) ∧
    (min (0:ℚ) 1 ≤ getAfterR (Smoothed.mk (.num 0) (.num 0) (.num 1)) (.num 1) [(1:ℚ)/2] 1 ∧
      getAfterR (Smoothed.mk (.num 0) (.num 0) (.num 1)) (.num 1) [(1:ℚ)/2] 1 ≤ max (0:ℚ) 1) := by
  have h := c6_monotone_when_no_rounding (Smoothed.mk (.num 0) (.num 0) (.num 1))
    0 0 1 [(1:ℚ)/2] rfl rfl rfl (by norm_num) witness_exact_trace
  exact ⟨h.1, fun h01 => (h.2.1 0 1 (by norm_num)).1 h01, h.2.2 1⟩
